import Mathlib

/-!
Shallow embedding of `src/rainflow.py` (rainflow cycle counting per
ASTM E1049-85 §5.4.4): `reversals`, `extract_cycles`, `count_cycles`.

Samples are modelled as rationals (`ℚ`).  The deque of pending points in
`extract_cycles` is modelled as a list in *newest-first* order: the list
head is `points[-1]` of the Python code, appending a point is consing,
`points.popleft()` drops the last element of the list.
-/

namespace Rainflow

/-- Loop body of `reversals` (src/rainflow.py lines 22-27): sliding a
three-sample window `x_last, x, x_next` over the series, yielding `x`
whenever the product of adjacent first differences is strictly negative.
`d_last` is maintained across iterations as the previous `d_next`, which
always equals `x - x_last`, so it is recomputed here. -/
def revLoop (x_last x : ℚ) : List ℚ → List ℚ
  | [] => []
  | x_next :: rest =>
    if (x - x_last) * (x_next - x) < 0 then
      x :: revLoop x x_next rest
    else
      revLoop x x_next rest

/-- Function `reversals` (src/rainflow.py lines 10-27).  The two initial
`series.next()` calls on line 19 fail when the series holds fewer than
two samples (the InsufficientData condition: no initial difference can
be established); this is modelled as `none`. -/
def reversals : List ℚ → Option (List ℚ)
  | x0 :: x1 :: rest => some (revLoop x0 x1 rest)
  | _ => none

/-- Inner `while len(points) >= 3` reduction loop of `extract_cycles`
(src/rainflow.py lines 42-61), on the newest-first queue
`c :: b :: a :: rest` (so `c = points[-1]`, `b = points[-2]`,
`a = points[-3]`), with `X = |points[-2] - points[-1]|` and
`Y = |points[-3] - points[-2]|`.  When `X < Y` the loop breaks; when the
queue holds exactly 3 points, `Y` is a half cycle and the oldest point
is removed (after which the loop condition fails at 2 points); otherwise
`Y` is a full cycle and the two points bounding `Y` are removed, keeping
the newest.  Returns the queue and the accumulated full/half lists.
Here the fixed parameter `c` is the newest point and the recursion runs
on the remainder `b :: a :: rest` of the queue. -/
def innerLoopAux (c : ℚ) : List ℚ → List ℚ → List ℚ → List ℚ × List ℚ × List ℚ
  | b :: a :: rest, full, half =>
    if |b - c| < |a - b| then
      (c :: b :: a :: rest, full, half)
    else if rest = [] then
      ([c, b], full, half ++ [|a - b|])
    else
      innerLoopAux c rest (full ++ [|a - b|]) half
  | tail, full, half => (c :: tail, full, half)

/-- Entry point of the inner loop on the whole queue.  The loop never
changes the newest point `c` (`points[-1]`): the `X < Y` branch and the
3-point branch stop the loop, and the full-cycle branch re-appends the
popped `last = points.pop()`; so `c` is threaded as the fixed parameter
of `innerLoopAux` and the recursion is on the rest of the queue. -/
def innerLoop : List ℚ → List ℚ → List ℚ → List ℚ × List ℚ × List ℚ
  | c :: tail, full, half => innerLoopAux c tail full half
  | [], full, half => ([], full, half)

/-- Outer `for x in reversals(series)` loop of `extract_cycles`
(src/rainflow.py lines 40-61): append each reversal to the queue, then
run the inner reduction loop. -/
def extractLoop : List ℚ → List ℚ × List ℚ × List ℚ → List ℚ × List ℚ × List ℚ
  | [], st => st
  | x :: xs, (points, full, half) => extractLoop xs (innerLoop (x :: points) full half)

/-- Final drain of `extract_cycles` (src/rainflow.py lines 62-66):
`while len(points) > 1`, record `|points[-2] - points[-1]|` as a half
cycle and pop the newest point. -/
def drain : List ℚ → List ℚ → List ℚ
  | c :: b :: rest, half => drain (b :: rest) (half ++ [|b - c|])
  | _, half => half

/-- Function `extract_cycles` (src/rainflow.py lines 31-67).  A series with fewer
than two samples makes `reversals` yield nothing (the StopIteration ends
the generator), so the queue stays empty and both lists are empty; this
is the `getD []` case. -/
def extract_cycles (series : List ℚ) : List ℚ × List ℚ :=
  let st := extractLoop ((reversals series).getD []) ([], [], [])
  (st.2.1, drain st.1 st.2.2)

/-- Ordering used by Python's `sorted` on the weighted `(range, weight)`
tuples of src/rainflow.py line 83: lexicographic on the pair. -/
def pairLe (p q : ℚ × ℚ) : Bool :=
  decide (p.1 < q.1) || (decide (p.1 = q.1) && decide (p.2 ≤ q.2))

/-- Body of the `groupby` accumulation of `count_cycles`
(src/rainflow.py lines 86-89): `key` is the magnitude of the current
group and `acc` the sum of weights seen for it so far; a new magnitude
closes the current group. -/
def groupSumAux : ℚ → ℚ → List (ℚ × ℚ) → List (ℚ × ℚ)
  | key, acc, [] => [(key, acc)]
  | key, acc, (m, w) :: rest =>
    if m = key then groupSumAux key (acc + w) rest
    else (key, acc) :: groupSumAux m w rest

/-- The `itertools.groupby` pass over the sorted weighted cycles, grouping runs
of equal magnitudes and summing their weights (src/rainflow.py
lines 86-89). -/
def groupSum : List (ℚ × ℚ) → List (ℚ × ℚ)
  | [] => []
  | (m, w) :: rest => groupSumAux m w rest

/-- Weight tagging of `count_cycles` (src/rainflow.py lines 81-82):
1.0 per full cycle, 0.5 per half cycle, fulls chained before halves. -/
def weighted (full half : List ℚ) : List (ℚ × ℚ) :=
  full.map (fun x => (x, 1)) ++ half.map (fun x => (x, 1/2))

/-- Sort-then-group aggregation step of `count_cycles`
(src/rainflow.py lines 83-89). -/
def aggregate (cycles : List (ℚ × ℚ)) : List (ℚ × ℚ) :=
  groupSum (cycles.mergeSort pairLe)

/-- Function `count_cycles` (src/rainflow.py lines 71-91). -/
def count_cycles (series : List ℚ) : List (ℚ × ℚ) :=
  let fh := extract_cycles series
  aggregate (weighted fh.1 fh.2)

/-- Adjacent ranges of the newest-first queue, newest range first:
`ranges [c, b, a, ...] = [|b - c|, |a - b|, ...]`. -/
def ranges : List ℚ → List ℚ
  | c :: b :: rest => |b - c| :: ranges (b :: rest)
  | _ => []

/-- Sum of the weights carried by the entries of `l` whose magnitude is
exactly `m`. -/
def wsum (m : ℚ) (l : List (ℚ × ℚ)) : ℚ :=
  ((l.filter (fun e => decide (e.1 = m))).map Prod.snd).sum

/-- Specification-side reversal predicate, following the spec's words:
slide over all windows of three consecutive samples (so the middle value
is never the first or last sample of the series) and emit the middle
sample exactly when the product of the adjacent first differences is
strictly negative, in series order.  A zero difference makes the product
zero, which is not negative, so a plateau sample is never emitted. -/
def revSpecZip (s : List ℚ) : List ℚ :=
  ((s.zip (s.drop 1)).zip (s.drop 2)).filterMap
    (fun w => if (w.1.2 - w.1.1) * (w.2 - w.1.2) < 0 then some w.1.2 else none)

/-! ### Lemmas about `reversals` -/

lemma revLoop_eq_revSpecZip :
    ∀ (rest : List ℚ) (x0 x1 : ℚ), revLoop x0 x1 rest = revSpecZip (x0 :: x1 :: rest)
  | [], x0, x1 => by simp [revLoop, revSpecZip]
  | x2 :: t, x0, x1 => by
    have ih := revLoop_eq_revSpecZip t x1 x2
    simp only [revLoop, revSpecZip, List.drop_succ_cons, List.drop_zero, List.zip_cons_cons,
      List.filterMap_cons] at ih ⊢
    split <;> simp [ih]

lemma reversals_isNone_iff (s : List ℚ) : reversals s = none ↔ s.length < 2 := by
  match s with
  | [] => simp [reversals]
  | [x] => simp [reversals]
  | x0 :: x1 :: rest => simp [reversals]

/-! ### Lemmas about the extraction queue -/

lemma ranges_cons_cons (c b : ℚ) (rest : List ℚ) :
    ranges (c :: b :: rest) = |b - c| :: ranges (b :: rest) := rfl

lemma ranges_length : ∀ p : List ℚ, (ranges p).length = p.length - 1
  | [] => rfl
  | [_] => rfl
  | c :: b :: rest => by
    simp [ranges, ranges_length (b :: rest)]

lemma drain_eq_append : ∀ (p half : List ℚ), drain p half = half ++ ranges p
  | [], half => by simp [drain, ranges]
  | [_], half => by simp [drain, ranges]
  | c :: b :: rest, half => by
    simp [drain, ranges, drain_eq_append (b :: rest)]

lemma innerLoopAux_conservation (c : ℚ) : ∀ (tail full half : List ℚ),
    2 * (innerLoopAux c tail full half).2.1.length
        + (innerLoopAux c tail full half).2.2.length
        + (innerLoopAux c tail full half).1.length
      = 2 * full.length + half.length + tail.length + 1
  | b :: a :: rest, full, half => by
    rw [innerLoopAux]
    split
    · simp
      omega
    · split
      · rename_i hrest
        subst hrest
        simp
        omega
      · have ih := innerLoopAux_conservation c rest (full ++ [|a - b|]) half
        simp at ih ⊢
        omega
  | [], _, _ => by simp [innerLoopAux]
  | [_], _, _ => by simp [innerLoopAux]

lemma innerLoop_conservation (p full half : List ℚ) :
    2 * (innerLoop p full half).2.1.length + (innerLoop p full half).2.2.length
        + (innerLoop p full half).1.length
      = 2 * full.length + half.length + p.length := by
  match p with
  | [] => simp [innerLoop]
  | c :: tail =>
    have := innerLoopAux_conservation c tail full half
    simp only [innerLoop, List.length_cons]
    omega

lemma innerLoopAux_ne_nil (c : ℚ) : ∀ (tail full half : List ℚ),
    (innerLoopAux c tail full half).1 ≠ []
  | b :: a :: rest, full, half => by
    rw [innerLoopAux]
    split
    · simp
    · split
      · simp
      · exact innerLoopAux_ne_nil c rest (full ++ [|a - b|]) half
  | [], _, _ => by simp [innerLoopAux]
  | [_], _, _ => by simp [innerLoopAux]

lemma innerLoop_ne_nil (p full half : List ℚ) (h : p ≠ []) :
    (innerLoop p full half).1 ≠ [] := by
  match p with
  | [] => exact absurd rfl h
  | c :: tail => exact innerLoopAux_ne_nil c tail full half

lemma extractLoop_conservation : ∀ (xs p full half : List ℚ),
    2 * (extractLoop xs (p, full, half)).2.1.length
        + (extractLoop xs (p, full, half)).2.2.length
        + (extractLoop xs (p, full, half)).1.length
      = 2 * full.length + half.length + p.length + xs.length
  | [], p, full, half => by simp [extractLoop]
  | x :: xs, p, full, half => by
    rcases hst : innerLoop (x :: p) full half with ⟨p1, f1, h1⟩
    have hinner := innerLoop_conservation (x :: p) full half
    rw [hst] at hinner
    have ih := extractLoop_conservation xs p1 f1 h1
    rw [extractLoop, hst]
    simp only [List.length_cons] at hinner ⊢
    omega

lemma extractLoop_ne_nil : ∀ (xs p full half : List ℚ),
    p ≠ [] ∨ xs ≠ [] → (extractLoop xs (p, full, half)).1 ≠ []
  | [], p, full, half, h => by
    simp only [extractLoop]
    exact h.resolve_right (by simp)
  | x :: xs, p, full, half, _ => by
    rcases hst : innerLoop (x :: p) full half with ⟨p1, f1, h1⟩
    have hne : p1 ≠ [] := by
      have := innerLoop_ne_nil (x :: p) full half (by simp)
      rw [hst] at this
      exact this
    rw [extractLoop, hst]
    exact extractLoop_ne_nil xs p1 f1 h1 (Or.inl hne)

lemma revLoop_eq_nil_of_lt : ∀ (rest : List ℚ) (x0 x1 : ℚ),
    x0 < x1 → List.Chain' (· < ·) (x1 :: rest) → revLoop x0 x1 rest = []
  | [], _, _, _, _ => rfl
  | x2 :: t, x0, x1, h01, hch => by
    obtain ⟨h12, hch2⟩ := List.chain'_cons.mp hch
    rw [revLoop, if_neg]
    · exact revLoop_eq_nil_of_lt t x1 x2 h12 hch2
    · have := mul_pos (sub_pos.mpr h01) (sub_pos.mpr h12)
      linarith

/-! ### Strictly-decreasing-ranges invariant of the extraction queue -/

lemma innerLoopAux_ranges_chain (c : ℚ) : ∀ (tail full half : List ℚ),
    (ranges tail).Chain' (· < ·) →
    (ranges (innerLoopAux c tail full half).1).Chain' (· < ·)
  | b :: a :: rest, full, half, hch => by
    have hch1 : (ranges (a :: rest)).Chain' (· < ·) := by
      rw [ranges_cons_cons] at hch
      exact hch.tail
    rw [innerLoopAux]
    split
    · rename_i hXY
      rw [ranges_cons_cons, ranges_cons_cons]
      refine List.chain'_cons.mpr ⟨hXY, ?_⟩
      rwa [ranges_cons_cons] at hch
    · split
      · simp [ranges]
      · rename_i hrest
        refine innerLoopAux_ranges_chain c rest (full ++ [|a - b|]) half ?_
        match rest, hrest with
        | d :: t, _ =>
          rw [ranges_cons_cons] at hch1
          exact hch1.tail
  | [], _, _, _ => by simp [innerLoopAux, ranges]
  | [_], _, _, _ => by simp [innerLoopAux, ranges]

lemma extractLoop_ranges_chain : ∀ (xs p full half : List ℚ),
    (ranges p).Chain' (· < ·) →
    (ranges (extractLoop xs (p, full, half)).1).Chain' (· < ·)
  | [], p, _, _, h => by simpa [extractLoop] using h
  | x :: xs, p, full, half, h => by
    have hres : (ranges (innerLoop (x :: p) full half).1).Chain' (· < ·) := by
      rw [innerLoop]
      exact innerLoopAux_ranges_chain x p full half h
    rcases hst : innerLoop (x :: p) full half with ⟨p1, f1, h1⟩
    rw [hst] at hres
    rw [extractLoop, hst]
    exact extractLoop_ranges_chain xs p1 f1 h1 hres

/-! ### Lemmas about the aggregation step -/

lemma pairLe_trans : ∀ (a b c : ℚ × ℚ), pairLe a b → pairLe b c → pairLe a c := by
  intro a b c hab hbc
  simp only [pairLe, Bool.or_eq_true, Bool.and_eq_true, decide_eq_true_eq] at hab hbc ⊢
  rcases hab with h1 | ⟨h1, h2⟩ <;> rcases hbc with h3 | ⟨h3, h4⟩
  · exact Or.inl (h1.trans h3)
  · exact Or.inl (lt_of_lt_of_le h1 h3.le)
  · exact Or.inl (lt_of_le_of_lt h1.le h3)
  · exact Or.inr ⟨h1.trans h3, h2.trans h4⟩

lemma pairLe_total : ∀ (a b : ℚ × ℚ), pairLe a b || pairLe b a := by
  intro a b
  simp only [pairLe, Bool.or_eq_true, Bool.and_eq_true, decide_eq_true_eq]
  rcases lt_trichotomy a.1 b.1 with h | h | h
  · tauto
  · rcases le_total a.2 b.2 with h2 | h2 <;> tauto
  · tauto

lemma sorted_pairLe_keys (l : List (ℚ × ℚ)) :
    (l.mergeSort pairLe).Pairwise (fun a b : ℚ × ℚ => a.1 ≤ b.1) := by
  refine (List.sorted_mergeSort pairLe_trans pairLe_total l).imp ?_
  intro a b hab
  simp only [pairLe, Bool.or_eq_true, Bool.and_eq_true, decide_eq_true_eq] at hab
  rcases hab with h | ⟨h, _⟩
  · exact h.le
  · exact h.le

lemma wsum_cons (x m w : ℚ) (l : List (ℚ × ℚ)) :
    wsum x ((m, w) :: l) = (if m = x then w else 0) + wsum x l := by
  simp only [wsum, List.filter_cons]
  by_cases h : m = x
  · simp [h]
  · simp [h]

lemma wsum_eq_zero {x : ℚ} {l : List (ℚ × ℚ)} (h : ∀ e ∈ l, e.1 ≠ x) :
    wsum x l = 0 := by
  have hnil : l.filter (fun e => decide (e.1 = x)) = [] := by
    rw [List.filter_eq_nil_iff]
    intro e he
    simp [h e he]
  simp [wsum, hnil]

lemma wsum_perm (x : ℚ) {l l' : List (ℚ × ℚ)} (h : l.Perm l') : wsum x l = wsum x l' :=
  ((h.filter _).map _).sum_eq

lemma wsum_map_const (x c : ℚ) : ∀ l : List ℚ,
    wsum x (l.map fun y => (y, c)) = (l.count x : ℚ) * c
  | [] => by simp [wsum]
  | z :: t => by
    rw [List.map_cons, wsum_cons, wsum_map_const x c t]
    by_cases hzx : z = x
    · subst hzx
      simp [List.count_cons]
      ring
    · have hne : (x == z) = false := by simp [Ne.symm hzx]
      simp [hzx, List.count_cons, hne]

lemma wsum_append (x : ℚ) (l1 l2 : List (ℚ × ℚ)) :
    wsum x (l1 ++ l2) = wsum x l1 + wsum x l2 := by
  simp [wsum, List.filter_append]

lemma wsum_weighted (x : ℚ) (full half : List ℚ) :
    wsum x (weighted full half) = (full.count x : ℚ) + (half.count x : ℚ) / 2 := by
  rw [weighted, wsum_append, wsum_map_const, wsum_map_const]
  ring

lemma gsa_fst_head : ∀ (l : List (ℚ × ℚ)) (key acc : ℚ),
    ((groupSumAux key acc l).map Prod.fst).head? = some key
  | [], _, _ => rfl
  | (m, w) :: rest, key, acc => by
    rw [groupSumAux]
    split
    · exact gsa_fst_head rest key (acc + w)
    · rfl

lemma gsa_keys_le : ∀ (l : List (ℚ × ℚ)) (key acc : ℚ),
    (∀ e ∈ l, key ≤ e.1) → l.Pairwise (fun a b => a.1 ≤ b.1) →
    ∀ p ∈ groupSumAux key acc l, key ≤ p.1
  | [], key, acc, _, _ => by
    intro p hp
    simp only [groupSumAux, List.mem_singleton] at hp
    simp [hp]
  | (m, w) :: rest, key, acc, hall, hKS => by
    intro p hp
    obtain ⟨h1, h2⟩ := List.pairwise_cons.mp hKS
    rw [groupSumAux] at hp
    split at hp
    · exact gsa_keys_le rest key (acc + w)
        (fun e he => hall e (List.mem_cons_of_mem _ he)) h2 p hp
    · rcases List.mem_cons.mp hp with rfl | hp2
      · simp
      · exact (hall (m, w) (List.mem_cons_self _ _)).trans
          (gsa_keys_le rest m w h1 h2 p hp2)

lemma gsa_chain : ∀ (l : List (ℚ × ℚ)) (key acc : ℚ),
    (∀ e ∈ l, key ≤ e.1) → l.Pairwise (fun a b => a.1 ≤ b.1) →
    ((groupSumAux key acc l).map Prod.fst).Chain' (· < ·)
  | [], key, acc, _, _ => by simp [groupSumAux]
  | (m, w) :: rest, key, acc, hall, hKS => by
    obtain ⟨h1, h2⟩ := List.pairwise_cons.mp hKS
    rw [groupSumAux]
    split
    · exact gsa_chain rest key (acc + w)
        (fun e he => hall e (List.mem_cons_of_mem _ he)) h2
    · rename_i hm
      rw [List.map_cons]
      refine List.chain'_cons'.mpr ⟨?_, gsa_chain rest m w h1 h2⟩
      intro y hy
      rw [gsa_fst_head rest m w] at hy
      simp only [Option.mem_some_iff] at hy
      subst hy
      exact lt_of_le_of_ne (hall (m, w) (List.mem_cons_self _ _)) (fun hkm => hm hkm.symm)

lemma gsa_snd : ∀ (l : List (ℚ × ℚ)) (key acc : ℚ),
    (∀ e ∈ l, key ≤ e.1) → l.Pairwise (fun a b => a.1 ≤ b.1) →
    ∀ p ∈ groupSumAux key acc l, p.2 = (if p.1 = key then acc else 0) + wsum p.1 l
  | [], key, acc, _, _ => by
    intro p hp
    simp only [groupSumAux, List.mem_singleton] at hp
    subst hp
    simp [wsum]
  | (m, w) :: rest, key, acc, hall, hKS => by
    intro p hp
    obtain ⟨h1, h2⟩ := List.pairwise_cons.mp hKS
    rw [groupSumAux] at hp
    rw [wsum_cons]
    split at hp
    · rename_i hm
      have ih := gsa_snd rest key (acc + w)
        (fun e he => hall e (List.mem_cons_of_mem _ he)) h2 p hp
      by_cases hpk : p.1 = key
      · rw [if_pos hpk] at ih ⊢
        rw [if_pos (hm.trans hpk.symm)]
        rw [ih]
        ring
      · rw [if_neg hpk] at ih ⊢
        rw [if_neg (fun h => hpk (h.symm.trans hm))]
        rw [ih]
        ring
    · rename_i hm
      have hkm : key ≤ m := hall (m, w) (List.mem_cons_self _ _)
      have hklt : key < m := lt_of_le_of_ne hkm (fun h => hm h.symm)
      rcases List.mem_cons.mp hp with rfl | hp2
      · have hz : wsum key rest = 0 := wsum_eq_zero (fun e he => by
          have := h1 e he
          intro hek
          rw [hek] at this
          exact absurd this (not_le.mpr hklt))
        simp [hm, hz]
      · have hmp : m ≤ p.1 := gsa_keys_le rest m w h1 h2 p hp2
        have hpk : p.1 ≠ key := fun h => absurd (h ▸ hmp) (not_le.mpr hklt)
        have ih := gsa_snd rest m w h1 h2 p hp2
        rw [if_neg hpk]
        by_cases hpm : p.1 = m
        · rw [if_pos hpm] at ih
          rw [if_pos hpm.symm, ih]
          ring
        · rw [if_neg hpm] at ih
          rw [if_neg (fun h => hpm h.symm), ih]
          ring

lemma groupSum_chain (l : List (ℚ × ℚ)) (hKS : l.Pairwise (fun a b => a.1 ≤ b.1)) :
    ((groupSum l).map Prod.fst).Chain' (· < ·) := by
  match l with
  | [] => simp [groupSum]
  | (m, w) :: rest =>
    obtain ⟨h1, h2⟩ := List.pairwise_cons.mp hKS
    rw [groupSum]
    exact gsa_chain rest m w h1 h2

lemma groupSum_snd (l : List (ℚ × ℚ)) (hKS : l.Pairwise (fun a b => a.1 ≤ b.1)) :
    ∀ p ∈ groupSum l, p.2 = wsum p.1 l := by
  match l with
  | [] => simp [groupSum]
  | (m, w) :: rest =>
    intro p hp
    obtain ⟨h1, h2⟩ := List.pairwise_cons.mp hKS
    rw [groupSum] at hp
    have ih := gsa_snd rest m w h1 h2 p hp
    rw [wsum_cons]
    by_cases hpm : p.1 = m
    · rw [if_pos hpm] at ih
      rw [if_pos hpm.symm, ih]
    · rw [if_neg hpm] at ih
      rw [if_neg (fun h => hpm h.symm), ih]

lemma gsa_sum : ∀ (l : List (ℚ × ℚ)) (key acc : ℚ),
    ((groupSumAux key acc l).map Prod.snd).sum = acc + (l.map Prod.snd).sum
  | [], _, _ => by simp [groupSumAux]
  | (m, w) :: rest, key, acc => by
    rw [groupSumAux]
    split
    · rw [gsa_sum rest key (acc + w)]
      simp only [List.map_cons, List.sum_cons]
      ring
    · simp only [List.map_cons, List.sum_cons, gsa_sum rest m w]

lemma groupSum_sum : ∀ l : List (ℚ × ℚ),
    ((groupSum l).map Prod.snd).sum = (l.map Prod.snd).sum
  | [] => rfl
  | (m, w) :: rest => by
    rw [groupSum, gsa_sum rest m w]
    simp

lemma gsa_of_ne (m w : ℚ) (rest : List (ℚ × ℚ))
    (hne : ∀ y ∈ (rest.map Prod.fst).head?, m ≠ y) :
    groupSumAux m w rest = (m, w) :: groupSum rest := by
  match rest with
  | [] => simp [groupSumAux, groupSum]
  | (m2, w2) :: t =>
    have hm2 : m ≠ m2 := hne m2 (by simp)
    rw [groupSumAux, if_neg (fun h => hm2 h.symm), groupSum]

lemma groupSum_of_ne : ∀ l : List (ℚ × ℚ),
    (l.map Prod.fst).Chain' (· ≠ ·) → groupSum l = l
  | [], _ => rfl
  | (m, w) :: rest, hch => by
    obtain ⟨hhd, htl⟩ := List.chain'_cons'.mp (by simpa using hch)
    rw [groupSum, gsa_of_ne m w rest hhd, groupSum_of_ne rest htl]

lemma mergeSort_eq_self_of_chain (l : List (ℚ × ℚ))
    (hch : (l.map Prod.fst).Chain' (· < ·)) : l.mergeSort pairLe = l := by
  apply List.mergeSort_of_sorted
  have hp : (l.map Prod.fst).Pairwise (· < ·) := List.chain'_iff_pairwise.mp hch
  refine (List.pairwise_map.mp hp).imp ?_
  intro a b hab
  simp only [pairLe, Bool.or_eq_true, Bool.and_eq_true, decide_eq_true_eq]
  exact Or.inl hab

lemma count_cycles_keys_chain (series : List ℚ) :
    ((count_cycles series).map Prod.fst).Chain' (· < ·) := by
  simp only [count_cycles, aggregate]
  exact groupSum_chain _ (sorted_pairLe_keys _)

lemma snd_sum_tag (c : ℚ) : ∀ l : List ℚ,
    ((l.map fun x => (x, c)).map Prod.snd).sum = l.length * c
  | [] => by simp
  | a :: t => by
    simp only [List.map_cons, List.sum_cons, snd_sum_tag c t, List.length_cons]
    push_cast
    ring

lemma weighted_snd_sum (f h : List ℚ) :
    ((weighted f h).map Prod.snd).sum = (f.length : ℚ) + (h.length : ℚ) / 2 := by
  simp only [weighted, List.map_append, List.sum_append, snd_sum_tag]
  ring

lemma count_cycles_sum (series : List ℚ) :
    ((count_cycles series).map Prod.snd).sum
      = ((weighted (extract_cycles series).1 (extract_cycles series).2).map Prod.snd).sum := by
  simp only [count_cycles, aggregate]
  rw [groupSum_sum]
  exact ((List.mergeSort_perm _ pairLe).map Prod.snd).sum_eq

/-! ### Claim theorems -/

lemma extract_conservation (series : List ℚ)
    (h1 : 1 ≤ ((reversals series).getD []).length) :
    2 * (extract_cycles series).1.length + (extract_cycles series).2.length
      = ((reversals series).getD []).length - 1 := by
  have hcons := extractLoop_conservation ((reversals series).getD []) [] [] []
  have hne : (extractLoop ((reversals series).getD []) ([], [], [])).1 ≠ [] := by
    refine extractLoop_ne_nil _ [] [] [] (Or.inr ?_)
    intro h
    rw [h] at h1
    simp at h1
  have hlen : 1 ≤ (extractLoop ((reversals series).getD []) ([], [], [])).1.length :=
    List.length_pos.mpr hne
  simp only [extract_cycles, drain_eq_append, List.length_append, ranges_length]
  simp only [List.length_nil] at hcons
  omega

/-- C1: for every input series with at least 3 reversals, `extract_cycles`
returns lists `(full, half)` with `2 * full.length + half.length`
equal to the number of reversals minus 1. -/
theorem claim1_range_conservation (series : List ℚ)
    (h3 : 3 ≤ ((reversals series).getD []).length) :
    2 * (extract_cycles series).1.length + (extract_cycles series).2.length
      = ((reversals series).getD []).length - 1 :=
  extract_conservation series (le_trans (by norm_num) h3)

/-- C1 witness: the ASTM E1049-85 worked example has 7 reversals,
1 full cycle and 4 half cycles, and `2 * 1 + 4 = 7 - 1`. -/
theorem claim1_witness :
    3 ≤ ((reversals [-2, 1, -3, 5, -1, 3, -4, 4, -2]).getD []).length
      ∧ 2 * (extract_cycles [-2, 1, -3, 5, -1, 3, -4, 4, -2]).1.length
          + (extract_cycles [-2, 1, -3, 5, -1, 3, -4, 4, -2]).2.length
        = ((reversals [-2, 1, -3, 5, -1, 3, -4, 4, -2]).getD []).length - 1 :=
  ⟨by norm_num [reversals, revLoop],
   claim1_range_conservation [-2, 1, -3, 5, -1, 3, -4, 4, -2]
     (by norm_num [reversals, revLoop])⟩

/-- C3: `reversals` hits the InsufficientData condition (modelled as
`none`) exactly when the series has fewer than 2 samples; a series of
exactly 2 samples does not fail and gives empty full and half lists. -/
theorem claim3_insufficient_data (series : List ℚ) :
    (reversals series = none ↔ series.length < 2)
      ∧ (series.length = 2 → extract_cycles series = ([], [])) := by
  refine ⟨reversals_isNone_iff series, ?_⟩
  intro h2
  obtain ⟨x0, x1, rfl⟩ : ∃ a b, series = [a, b] := by
    match series with
    | [a, b] => exact ⟨a, b, rfl⟩
    | [] => simp at h2
    | [a] => simp at h2
    | a :: b :: c :: t => simp at h2
  simp [extract_cycles, reversals, revLoop, extractLoop, drain]

/-- C3 witness: a two-sample series yields `([], [])` without failing,
and the empty series fails. -/
theorem claim3_witness :
    extract_cycles [0, 1] = ([], []) ∧ reversals ([] : List ℚ) = none :=
  ⟨(claim3_insufficient_data [0, 1]).2 rfl,
   (claim3_insufficient_data []).1.mpr (by simp)⟩

/-- C4: on a series of at least 2 samples, `reversals` yields exactly the
interior samples (middles of the consecutive three-sample windows, hence
never the first or last sample) whose adjacent first differences have a
strictly negative product, in series order; a zero difference gives a
zero product, which is not negative, so a plateau sample is never a
reversal. -/
theorem claim4_reversal_characterization (x0 x1 : ℚ) (rest : List ℚ) :
    reversals (x0 :: x1 :: rest) = some (revSpecZip (x0 :: x1 :: rest)) := by
  simp [reversals, revLoop_eq_revSpecZip]

/-- C5: with the queue holding `c :: b :: a :: rest` (newest first),
`X = |b - c|` and `Y = |a - b|`, the comparison is strictly `X < Y`:
whenever `Y ≤ X` (ties included) the range `Y` is resolved immediately —
as a half cycle with the oldest point dropped when the queue holds
exactly 3 points, as a full cycle with the peak and valley of `Y`
removed (keeping the newest point) when it holds more; `Y` is deferred
only when `X < Y`. -/
theorem claim5_tie_break (a b c : ℚ) (rest full half : List ℚ) :
    (|a - b| ≤ |b - c| → rest = [] →
        innerLoop (c :: b :: a :: rest) full half = ([c, b], full, half ++ [|a - b|]))
      ∧ (|a - b| ≤ |b - c| → rest ≠ [] →
          innerLoop (c :: b :: a :: rest) full half
            = innerLoop (c :: rest) (full ++ [|a - b|]) half)
      ∧ (|b - c| < |a - b| →
          innerLoop (c :: b :: a :: rest) full half
            = (c :: b :: a :: rest, full, half)) := by
  refine ⟨?_, ?_, ?_⟩
  · intro hyx hrest
    subst hrest
    rw [innerLoop, innerLoopAux, if_neg (not_lt.mpr hyx), if_pos rfl]
  · intro hyx hrest
    rw [innerLoop, innerLoopAux, if_neg (not_lt.mpr hyx), if_neg hrest, innerLoop]
  · intro hxy
    rw [innerLoop, innerLoopAux, if_pos hxy]

/-- C5 witness: at the tie `X = Y = 1` the range is resolved, as a half
cycle on a 3-point queue and as a full cycle on a 4-point queue; with
`X < Y` the loop defers. -/
theorem claim5_witness :
    innerLoop [(0 : ℚ), 1, 0] [] [] = ([0, 1], [], [] ++ [|(0 : ℚ) - 1|])
      ∧ innerLoop [(0 : ℚ), 1, 0, 2] [] [] = innerLoop [0, 2] ([] ++ [|(0 : ℚ) - 1|]) []
      ∧ innerLoop [(0 : ℚ), 1, 3] [] [] = ([0, 1, 3], [], []) :=
  ⟨(claim5_tie_break 0 1 0 [] [] []).1 (by norm_num) rfl,
   (claim5_tie_break 0 1 0 [2] [] []).2.1 (by norm_num) (by simp),
   (claim5_tie_break 3 1 0 [] [] []).2.2 (by norm_num)⟩

/-- C6: the final drain turns a remaining queue of `k > 1` points into
exactly `k - 1` additional half cycles, one per adjacent range at the
end of the queue (`ranges`), and exactly one point is left over. -/
theorem claim6_drain (points half : List ℚ) (_h : 1 < points.length) :
    drain points half = half ++ ranges points
      ∧ (drain points half).length = half.length + (points.length - 1) := by
  refine ⟨drain_eq_append points half, ?_⟩
  simp [drain_eq_append, ranges_length]

/-- C6 witness: a 3-point queue drains into 2 half cycles. -/
theorem claim6_witness :
    1 < [(1 : ℚ), 0, 2].length
      ∧ (drain [(1 : ℚ), 0, 2] [] = [] ++ ranges [1, 0, 2]
          ∧ (drain [(1 : ℚ), 0, 2] []).length
            = ([] : List ℚ).length + ([(1 : ℚ), 0, 2].length - 1)) :=
  ⟨by norm_num, claim6_drain [1, 0, 2] [] (by norm_num)⟩

/-- C9: a strictly monotonically increasing series of length at least 2
has no reversals, and `extract_cycles` returns empty full and half
lists. -/
theorem claim9_monotonic (series : List ℚ) (h2 : 2 ≤ series.length)
    (hmono : series.Chain' (· < ·)) :
    reversals series = some [] ∧ extract_cycles series = ([], []) := by
  obtain ⟨x0, x1, rest, rfl⟩ : ∃ a b t, series = a :: b :: t := by
    match series with
    | a :: b :: t => exact ⟨a, b, t, rfl⟩
    | [] => simp at h2
    | [a] => simp at h2
  obtain ⟨h01, hch⟩ := List.chain'_cons.mp hmono
  have hrev : revLoop x0 x1 rest = [] := revLoop_eq_nil_of_lt rest x0 x1 h01 hch
  refine ⟨by simp [reversals, hrev], ?_⟩
  simp [extract_cycles, reversals, hrev, extractLoop, drain]

/-- C9 witness: the increasing series `[0, 1, 2]`. -/
theorem claim9_witness :
    2 ≤ [(0 : ℚ), 1, 2].length ∧ [(0 : ℚ), 1, 2].Chain' (· < ·)
      ∧ (reversals [(0 : ℚ), 1, 2] = some [] ∧ extract_cycles [(0 : ℚ), 1, 2] = ([], [])) :=
  ⟨by norm_num, by simp, claim9_monotonic [0, 1, 2] (by norm_num) (by simp)⟩

/-- C10: whenever the inner reduction loop exits — that is, after any
prefix `consumed` of the actual reversal sequence of the run has been
processed — the adjacent ranges of the queue, read from oldest to
newest, are strictly decreasing.  The queue is kept newest-first, so
oldest-to-newest order is the reverse of `ranges`. -/
theorem claim10_queue_invariant (series : List ℚ) (consumed remaining : List ℚ)
    (_h : (reversals series).getD [] = consumed ++ remaining) :
    ((ranges (extractLoop consumed ([], [], [])).1).reverse).Chain' (· > ·) := by
  rw [List.chain'_reverse]
  exact extractLoop_ranges_chain consumed [] [] [] (by simp [ranges])

/-- C10 witness: after the first three reversals of the ASTM worked
example, the queue is `[-1, 5, -3]` (newest first) with ranges `6 < 8`
decreasing from oldest to newest. -/
theorem claim10_witness :
    (reversals [-2, 1, -3, 5, -1, 3, -4, 4, -2]).getD []
        = [1, -3, 5, -1] ++ [3, -4, 4]
      ∧ ((ranges (extractLoop [1, -3, 5, -1] ([], [], [])).1).reverse).Chain' (· > ·) :=
  ⟨by norm_num [reversals, revLoop],
   claim10_queue_invariant [-2, 1, -3, 5, -1, 3, -4, 4, -2] [1, -3, 5, -1] [3, -4, 4]
     (by norm_num [reversals, revLoop])⟩

/-- C2 counterexample: the series `[0, 1, 0, 1, 0]` has 3 reversals,
`extract_cycles` gives no full cycle and two half cycles, so the sum of
the extracted weights is `1`, not `3 - 1 = 2`: the claimed identity
"sum of weights = reversals - 1" fails on the code. -/
theorem claim2_counterexample :
    ¬ (((weighted (extract_cycles [0, 1, 0, 1, 0]).1
            (extract_cycles [0, 1, 0, 1, 0]).2).map Prod.snd).sum
        = (((reversals [0, 1, 0, 1, 0]).getD []).length : ℚ) - 1) := by
  norm_num [extract_cycles, reversals, revLoop, extractLoop, innerLoop, innerLoopAux,
    drain, weighted]

/-- C2 amended: for every series with at least 1 reversal, the sum of
the extracted weights (1.0 per full cycle plus 0.5 per half cycle),
which equals the sum of all counts returned by `count_cycles`, is
exactly `(R - 1) / 2` where `R` is the number of reversals — half of
the claimed value. -/
theorem claim2_weight_sum (series : List ℚ)
    (h1 : 1 ≤ ((reversals series).getD []).length) :
    ((weighted (extract_cycles series).1 (extract_cycles series).2).map Prod.snd).sum
        = ((((reversals series).getD []).length : ℚ) - 1) / 2
      ∧ ((count_cycles series).map Prod.snd).sum
        = ((((reversals series).getD []).length : ℚ) - 1) / 2 := by
  have hcons := extract_conservation series h1
  have hcast : 2 * ((extract_cycles series).1.length : ℚ)
      + ((extract_cycles series).2.length : ℚ)
      = (((reversals series).getD []).length : ℚ) - 1 := by
    have h2 : 2 * (extract_cycles series).1.length + (extract_cycles series).2.length + 1
        = ((reversals series).getD []).length := by omega
    push_cast [← h2]
    ring
  have hws := weighted_snd_sum (extract_cycles series).1 (extract_cycles series).2
  constructor
  · rw [hws]
    linarith
  · rw [count_cycles_sum, hws]
    linarith

/-- C2 amended witness: the ASTM worked example has 7 reversals and
total weight `3 = (7 - 1) / 2`. -/
theorem claim2_witness :
    1 ≤ ((reversals [-2, 1, -3, 5, -1, 3, -4, 4, -2]).getD []).length
      ∧ (((weighted (extract_cycles [-2, 1, -3, 5, -1, 3, -4, 4, -2]).1
              (extract_cycles [-2, 1, -3, 5, -1, 3, -4, 4, -2]).2).map Prod.snd).sum
          = ((((reversals [-2, 1, -3, 5, -1, 3, -4, 4, -2]).getD []).length : ℚ) - 1) / 2
        ∧ ((count_cycles [-2, 1, -3, 5, -1, 3, -4, 4, -2]).map Prod.snd).sum
          = ((((reversals [-2, 1, -3, 5, -1, 3, -4, 4, -2]).getD []).length : ℚ) - 1) / 2) :=
  ⟨by norm_num [reversals, revLoop],
   claim2_weight_sum [-2, 1, -3, 5, -1, 3, -4, 4, -2] (by norm_num [reversals, revLoop])⟩

/-- C7: the `(magnitude, count)` pairs returned by `count_cycles` have
strictly ascending magnitudes (hence no duplicates), and each count is
the sum of the weights of all extracted cycles whose range equals that
magnitude exactly — 1.0 per full-cycle occurrence plus 0.5 per
half-cycle occurrence, grouping by exact equality on `ℚ`. -/
theorem claim7_count_structure (series : List ℚ) :
    ((count_cycles series).map Prod.fst).Chain' (· < ·)
      ∧ ∀ p ∈ count_cycles series,
          p.2 = ((extract_cycles series).1.count p.1 : ℚ)
                + ((extract_cycles series).2.count p.1 : ℚ) / 2 := by
  refine ⟨count_cycles_keys_chain series, ?_⟩
  intro p hp
  have hp2 : p ∈ groupSum
      ((weighted (extract_cycles series).1 (extract_cycles series).2).mergeSort pairLe) := by
    simpa [count_cycles, aggregate] using hp
  have hsnd := groupSum_snd _ (sorted_pairLe_keys _) p hp2
  rw [wsum_perm p.1 (List.mergeSort_perm _ pairLe), wsum_weighted] at hsnd
  exact hsnd

/-- C7 witness: `count_cycles [0, 2, 0, 2] = [(2, 1/2)]`, whose single
entry is the half cycle of range 2 with weight `0 + 1/2`. -/
theorem claim7_witness :
    ((count_cycles [0, 2, 0, 2]).map Prod.fst).Chain' (· < ·)
      ∧ ((2 : ℚ), (1 / 2 : ℚ)) ∈ count_cycles [0, 2, 0, 2]
      ∧ ((2 : ℚ), (1 / 2 : ℚ)).2
          = ((extract_cycles [0, 2, 0, 2]).1.count ((2 : ℚ), (1 / 2 : ℚ)).1 : ℚ)
            + ((extract_cycles [0, 2, 0, 2]).2.count ((2 : ℚ), (1 / 2 : ℚ)).1 : ℚ) / 2 := by
  have hmem : ((2 : ℚ), (1 / 2 : ℚ)) ∈ count_cycles [0, 2, 0, 2] := by
    norm_num [count_cycles, aggregate, extract_cycles, reversals, revLoop, extractLoop,
      innerLoop, innerLoopAux, drain, weighted, groupSum, groupSumAux]
  exact ⟨(claim7_count_structure [0, 2, 0, 2]).1, hmem,
    (claim7_count_structure [0, 2, 0, 2]).2 _ hmem⟩

/-- C8: the sort-and-group aggregation of `count_cycles` is idempotent —
feeding the `(magnitude, count)` output back through the aggregation
step reproduces the same count list. -/
theorem claim8_aggregation_idempotent (series : List ℚ) :
    aggregate (count_cycles series) = count_cycles series := by
  have hch := count_cycles_keys_chain series
  rw [aggregate, mergeSort_eq_self_of_chain _ hch]
  exact groupSum_of_ne _ (hch.imp (fun a b hab => ne_of_lt hab))

end Rainflow
